import Mathlib

/-
Verification of the thread-safe FIFO library (FIFO.hpp / sFIFO.hpp,
namespace tsFIFO).

Shallow embedding: the protected state of a `FIFO<T>` object is its
buffer (`std::queue<T>` modelled as a `List T`, front = head) together
with `_max_size` (a C++ `int`, modelled as `Int`).  The weighted
subclass `sFIFO<T, TimeT>` adds `_max_size_seconds` and `_size_seconds`
(`TimeT` duration counts, modelled as `Int`); the item weight accessor
`item->get_size_seconds()` is modelled as an explicit function
`w : T -> Int`.  The mutex serialises every public operation, so each
operation is one atomic state transition; `_condv.notify_one()` is
modelled as a Bool in the result of `push` recording whether the signal
was executed.  Fallible spots (calling `front()` on an empty buffer,
which is undefined behaviour) return `Option`, with `none` for the
error branch.
-/

namespace TsFIFO

/-- The `ActionIfFull` enum of FIFO.hpp: `Nothing` rejects a push into a
full queue, `DumpFirstEntry` evicts the oldest item first. -/
inductive ActionIfFull
  | Nothing
  | DumpFirstEntry
deriving DecidableEq

/-- The `Status` enum of FIFO.hpp. -/
inductive Status
  | ERROR
  | SUCCESS
  | FULL
  | TIMEOUT
deriving DecidableEq

/-- The C++ comparison `_queue.size() >= _max_size` converts the `int`
`_max_size` to `size_t`, i.e. reduces it modulo 2^64 into `[0, 2^64)`.
`usize m` is that converted value (18446744073709551616 = 2^64). -/
def usize (m : Int) : Nat :=
  (m % 18446744073709551616).toNat

/-- State of a `FIFO<T>` object: `_queue` and `_max_size`.
`FIFO()` gives `⟨[], 0⟩`, `FIFO(size)` gives `⟨[], size⟩`. -/
structure FIFO (T : Type) where
  queue : List T
  max_size : Int
deriving DecidableEq

/-- `FIFO::is_full_helper`: `_queue.size() >= _max_size` (with the
`int`-to-`size_t` conversion on the right-hand side). -/
def FIFO.is_full_helper (q : FIFO T) : Bool :=
  decide (usize q.max_size ≤ q.queue.length)

/-- `FIFO::size`: `_queue.size()`. -/
def FIFO.size (q : FIFO T) : Nat :=
  q.queue.length

/-- `FIFO::pull_pop_first`: `front()` then `pop()`.  `front()` on an
empty buffer is undefined behaviour, modelled as `none`. -/
def FIFO.pull_pop_first (q : FIFO T) : Option (T × FIFO T) :=
  match q.queue with
  | [] => none
  | x :: rest => some (x, { q with queue := rest })

/-- `FIFO::push_last`: `_queue.push(std::move(item))`. -/
def FIFO.push_last (q : FIFO T) (item : T) : FIFO T :=
  { q with queue := q.queue ++ [item] }

/-- `FIFO::push`.  Result: status, new state, and whether
`_condv.notify_one()` was executed.  The source returns `Status::FULL`
from inside the full-branch, before the `notify_one()` call, so the
Bool is `true` only on the non-full path.  `none` models the undefined
`front()` on an empty buffer in the eviction branch. -/
def FIFO.push (a : ActionIfFull) (q : FIFO T) (item : T) :
    Option (Status × FIFO T × Bool) :=
  if q.is_full_helper then
    match a with
    | .Nothing => some (.FULL, q, false)
    | .DumpFirstEntry =>
      match q.pull_pop_first with
      | none => none
      | some (_, q1) => some (.FULL, q1.push_last item, false)
  else
    some (.SUCCESS, q.push_last item, true)

/-- Result of one `_condv.wait_for(_lock, milliseconds(timeout))` call:
either the relative timeout expired (`timedout`) or the thread was
woken before that (`woken`, by a notify or spuriously). -/
inductive WaitResult
  | timedout
  | woken
deriving DecidableEq

/-- One suspension of the consumer inside the timed `pull` loop, as
seen when the consumer reacquires the lock: how the wait ended, how
much time it consumed, and which items producers appended to the
buffer while the lock was released. -/
structure WaitEvent (T : Type) where
  result : WaitResult
  elapsed : Nat
  arrivals : List T
deriving DecidableEq

/-- Fidelity condition on a wait event: `wait_for` with relative bound
`timeout` reports `timedout` after exactly `timeout` time units and
`woken` strictly before that. -/
def ValidEvent (timeout : Nat) (ev : WaitEvent T) : Prop :=
  (ev.result = .timedout → ev.elapsed = timeout) ∧
  (ev.result = .woken → ev.elapsed < timeout)

instance (timeout : Nat) (ev : WaitEvent T) :
    Decidable (ValidEvent timeout ev) := by
  unfold ValidEvent
  infer_instance

/-- `FIFO::pull(T&, unsigned timeout)`: `while (_queue.empty()) { if
(wait_for(_lock, milliseconds(timeout)) == timeout) return TIMEOUT; }
item = pull_pop_first(); return SUCCESS;`.  The schedule of waits is
the event list; each iteration passes the full original `timeout` to
`wait_for`.  Result: status, item consumed (if any), final state, and
the clock value on return (`elapsed` is the clock on entry).  `none`
means the modelled schedule ran out while the consumer was still
waiting. -/
def FIFO.pull_timed (timeout : Nat) :
    List (WaitEvent T) → FIFO T → Nat →
    Option (Status × Option T × FIFO T × Nat)
  | evs, q, elapsed =>
    match q.queue with
    | x :: rest => some (.SUCCESS, some x, { q with queue := rest }, elapsed)
    | [] =>
      match evs with
      | [] => none
      | ev :: tail =>
        match ev.result with
        | .timedout =>
          some (.TIMEOUT, none, { q with queue := q.queue ++ ev.arrivals },
            elapsed + ev.elapsed)
        | .woken =>
          FIFO.pull_timed timeout tail
            { q with queue := q.queue ++ ev.arrivals } (elapsed + ev.elapsed)

/-- A sequence of `push` calls, collecting the returned statuses.
`none` as soon as one call hits the undefined-behaviour branch. -/
def FIFO.push_all (a : ActionIfFull) :
    List T → FIFO T → Option (FIFO T × List Status)
  | [], q => some (q, [])
  | x :: xs, q =>
    match q.push a x with
    | none => none
    | some (st, q1, _) =>
      match FIFO.push_all a xs q1 with
      | none => none
      | some (q2, sts) => some (q2, st :: sts)

/-- `n` successive (blocking) `pull` calls: each one removes the head
via `pull_pop_first` once the buffer is non-empty; on an empty buffer
`pull` would block forever, so draining stops there. -/
def FIFO.pull_all : Nat → FIFO T → List T
  | 0, _ => []
  | n + 1, q =>
    match q.pull_pop_first with
    | none => []
    | some (x, q1) => x :: FIFO.pull_all n q1

/-- A concrete weight accessor for tests and witnesses: a `Nat` item
whose `get_size_seconds()` is its own value. -/
def wNat : Nat → Int := fun n => (n : Int)

/-- State of an `sFIFO<T, TimeT>` object: the inherited `_queue` plus
`_max_size_seconds` and `_size_seconds`.  `sFIFO()` gives `⟨[], 0, 0⟩`,
`sFIFO(s)` gives `⟨[], s, 0⟩`. -/
structure sFIFO (T : Type) where
  queue : List T
  max_size_seconds : Int
  size_seconds : Int
deriving DecidableEq

/-- `sFIFO::is_full_helper`: `_size_seconds >= _max_size_seconds`
(both of type `TimeT`, no conversion). -/
def sFIFO.is_full_helper (q : sFIFO T) : Bool :=
  decide (q.max_size_seconds ≤ q.size_seconds)

/-- `sFIFO::pull_pop_first`: `front()`, subtract its weight from
`_size_seconds`, `pop()`.  `w` models `item->get_size_seconds()`. -/
def sFIFO.pull_pop_first (w : T → Int) (q : sFIFO T) :
    Option (T × sFIFO T) :=
  match q.queue with
  | [] => none
  | x :: rest =>
    some (x, { q with queue := rest, size_seconds := q.size_seconds - w x })

/-- `sFIFO::push_last`: add the item's weight to `_size_seconds`, then
`_queue.push(std::move(item))`. -/
def sFIFO.push_last (w : T → Int) (q : sFIFO T) (item : T) : sFIFO T :=
  { q with queue := q.queue ++ [item],
           size_seconds := q.size_seconds + w item }

/-- `FIFO::push` executed on an `sFIFO` object: the control flow of the
base class with the virtual hooks dispatched to the `sFIFO` overrides. -/
def sFIFO.push (a : ActionIfFull) (w : T → Int) (q : sFIFO T) (item : T) :
    Option (Status × sFIFO T × Bool) :=
  if q.is_full_helper then
    match a with
    | .Nothing => some (.FULL, q, false)
    | .DumpFirstEntry =>
      match q.pull_pop_first w with
      | none => none
      | some (_, q1) => some (.FULL, q1.push_last w item, false)
  else
    some (.SUCCESS, q.push_last w item, true)

/-- `sFIFO::clear`: swap the buffer with an empty queue and reset
`_size_seconds` to `TimeT()`. -/
def sFIFO.clear (q : sFIFO T) : sFIFO T :=
  { q with queue := [], size_seconds := 0 }

/-- The extent invariant of the weighted variant: `_size_seconds`
equals the recomputable sum of `get_size_seconds()` over the resident
items. -/
def sFIFO.inv (w : T → Int) (q : sFIFO T) : Prop :=
  q.size_seconds = (q.queue.map w).sum

instance (w : T → Int) (q : sFIFO T) : Decidable (sFIFO.inv w q) := by
  unfold sFIFO.inv
  infer_instance

/-- One public operation on a weighted queue, for stating properties of
operation sequences: a `push` (which may evict), a `pull` that obtained
an item (the blocking form, or the timed form returning `SUCCESS` —
both remove the head via the overridden `pull_pop_first`), a timed
`pull` that returned `TIMEOUT` (which touches nothing), or
`sFIFO::clear`. -/
inductive SOp (T : Type)
  | push (x : T)
  | pull
  | pull_timeout
  | clearOp
deriving DecidableEq

/-- The state transition of one operation.  `none` marks the runs the
real object cannot complete: a `pull` on an empty buffer blocks, and a
`push` hitting the empty-buffer eviction branch is undefined. -/
def sFIFO.step (a : ActionIfFull) (w : T → Int) (q : sFIFO T) :
    SOp T → Option (sFIFO T)
  | .push x =>
    match q.push a w x with
    | none => none
    | some (_, q1, _) => some q1
  | .pull =>
    match q.pull_pop_first w with
    | none => none
    | some (_, q1) => some q1
  | .pull_timeout => some q
  | .clearOp => some q.clear

/-- Run a sequence of operations. -/
def sFIFO.run (a : ActionIfFull) (w : T → Int) :
    List (SOp T) → sFIFO T → Option (sFIFO T)
  | [], q => some q
  | op :: ops, q =>
    match q.step a w op with
    | none => none
    | some q1 => sFIFO.run a w ops q1

/-- The loop of the base `FIFO::clear`, executed on an `sFIFO` object
(`clear` is not virtual, so a call through the base interface runs the
base loop, while the virtual `pull_pop_first` inside it dispatches to
the `sFIFO` override): `for (int i = 0; i < _queue.size(); ++i) { item
= pull_pop_first(); clear_helper(item); }`.  The loop bound
`_queue.size()` is re-read each iteration and shrinks as items are
popped.  Arguments: buffer, `_size_seconds`, loop counter `i`. -/
def clear_loop (w : T → Int) : List T → Int → Nat → List T × Int
  | [], s, _ => ([], s)
  | x :: rest, s, i =>
    if i < (x :: rest).length then clear_loop w rest (s - w x) (i + 1)
    else (x :: rest, s)

/-- The whole base `FIFO::clear` executed on an `sFIFO` object: the
popping loop, then `std::swap(_queue, empty)` — which empties the
buffer without running the per-item hook, leaving `_size_seconds` at
whatever the loop reached. -/
def sFIFO.clear_via_base (w : T → Int) (q : sFIFO T) : sFIFO T :=
  { q with queue := [],
           size_seconds := (clear_loop w q.queue q.size_seconds 0).2 }

/-- Draining by repeated pulls returns a prefix of the buffer, in
buffer order. -/
lemma pull_all_take : ∀ (n : Nat) (q : FIFO T), FIFO.pull_all n q = q.queue.take n := by
  intro n
  induction n with
  | zero => intro q; simp [FIFO.pull_all]
  | succ n ih =>
    intro q
    cases hq : q.queue with
    | nil => simp [FIFO.pull_all, FIFO.pull_pop_first, hq]
    | cons x rest => simp [FIFO.pull_all, FIFO.pull_pop_first, hq, ih]

/-- A push that returned `SUCCESS` took the non-full branch: it
appended the item and signalled the condition variable. -/
lemma push_success (a : ActionIfFull) (q : FIFO T) (x : T) (q1 : FIFO T)
    (b : Bool) (h : q.push a x = some (.SUCCESS, q1, b)) :
    q1 = q.push_last x ∧ q.is_full_helper = false ∧ b = true := by
  unfold FIFO.push at h
  by_cases hf : q.is_full_helper = true
  · rw [if_pos hf] at h
    cases a with
    | Nothing => simp at h
    | DumpFirstEntry =>
      cases hp : q.pull_pop_first with
      | none => rw [hp] at h; simp at h
      | some p => rw [hp] at h; simp at h
  · rw [if_neg hf] at h
    simp at h
    simp [h.1, h.2, Bool.not_eq_true] at hf ⊢
    exact hf

/-- A run of pushes that all returned `SUCCESS` appends the pushed
items, in order, to the buffer. -/
lemma push_all_success_queue (a : ActionIfFull) :
    ∀ (xs : List T) (q q' : FIFO T) (sts : List Status),
    FIFO.push_all a xs q = some (q', sts) →
    (∀ s ∈ sts, s = .SUCCESS) →
    q'.queue = q.queue ++ xs := by
  intro xs
  induction xs with
  | nil =>
    intro q q' sts h _
    simp [FIFO.push_all] at h
    simp [← h.1]
  | cons x xs ih =>
    intro q q' sts h hst
    cases hp : q.push a x with
    | none =>
      simp only [FIFO.push_all, hp] at h
      exact Option.noConfusion h
    | some res =>
      obtain ⟨st, q1, b⟩ := res
      cases hr : FIFO.push_all a xs q1 with
      | none =>
        simp only [FIFO.push_all, hp, hr] at h
        exact Option.noConfusion h
      | some res2 =>
        obtain ⟨q2, sts2⟩ := res2
        simp only [FIFO.push_all, hp, hr, Option.some.injEq, Prod.mk.injEq] at h
        obtain ⟨hq2, hsts⟩ := h
        have hstS : st = .SUCCESS := by
          refine hst st ?_
          rw [← hsts]
          exact List.mem_cons_self _ _
        subst hstS
        obtain ⟨hq1, -, -⟩ := push_success a q x q1 b hp
        subst hq1
        have htail : q2.queue = (q.push_last x).queue ++ xs := by
          refine ih (q.push_last x) q2 sts2 hr ?_
          intro s hs
          refine hst s ?_
          rw [← hsts]
          exact List.mem_cons_of_mem _ hs
        rw [← hq2, htail]
        simp [FIFO.push_last]

/-- The loop of the base `clear`, run on a buffer of length `L` with
loop counter `i`, pops exactly the first `(L - i + 1) / 2` items (for
`i = 0`: the first `⌈L/2⌉`), subtracting their weights. -/
lemma clear_loop_spec (w : T → Int) :
    ∀ (l : List T) (s : Int) (i : Nat),
    clear_loop w l s i
      = (l.drop ((l.length - i + 1) / 2),
         s - ((l.take ((l.length - i + 1) / 2)).map w).sum) := by
  intro l
  induction l with
  | nil => intro s i; simp [clear_loop]
  | cons x rest ih =>
    intro s i
    rw [clear_loop]
    by_cases hi : i < (x :: rest).length
    · rw [if_pos hi, ih]
      have hd : ((x :: rest).length - i + 1) / 2
          = (rest.length - (i + 1) + 1) / 2 + 1 := by
        simp only [List.length_cons] at hi ⊢
        omega
      rw [hd]
      simp [sub_sub]
    · rw [if_neg hi]
      have hz : (rest.length + 1 - i + 1) / 2 = 0 := by
        simp only [List.length_cons] at hi
        omega
      simp [hz]

/-- `sFIFO::push_last` preserves the extent invariant. -/
lemma inv_push_last (w : T → Int) (q : sFIFO T) (x : T)
    (h : sFIFO.inv w q) : sFIFO.inv w (q.push_last w x) := by
  unfold sFIFO.inv at h ⊢
  simp [sFIFO.push_last, h]

/-- `sFIFO::pull_pop_first` preserves the extent invariant. -/
lemma inv_pop (w : T → Int) (q q1 : sFIFO T) (x : T)
    (h : q.pull_pop_first w = some (x, q1)) (hinv : sFIFO.inv w q) :
    sFIFO.inv w q1 := by
  unfold sFIFO.pull_pop_first at h
  cases hq : q.queue with
  | nil => rw [hq] at h; simp at h
  | cons y rest =>
    rw [hq] at h
    simp only [Option.some.injEq, Prod.mk.injEq] at h
    obtain ⟨-, hq1⟩ := h
    rw [sFIFO.inv, hq] at hinv
    rw [sFIFO.inv, ← hq1]
    simp at hinv ⊢
    omega

/-- `FIFO::push` with the `sFIFO` hooks preserves the extent
invariant, in every branch (accept, reject, evict). -/
lemma inv_push (a : ActionIfFull) (w : T → Int) (q : sFIFO T) (x : T)
    (st : Status) (q1 : sFIFO T) (b : Bool)
    (h : sFIFO.push a w q x = some (st, q1, b)) (hinv : sFIFO.inv w q) :
    sFIFO.inv w q1 := by
  unfold sFIFO.push at h
  by_cases hf : q.is_full_helper = true
  · rw [if_pos hf] at h
    cases a with
    | Nothing =>
      simp only [Option.some.injEq, Prod.mk.injEq] at h
      rw [← h.2.1]
      exact hinv
    | DumpFirstEntry =>
      cases hp : q.pull_pop_first w with
      | none => rw [hp] at h; simp at h
      | some p =>
        obtain ⟨y, qp⟩ := p
        rw [hp] at h
        simp only [Option.some.injEq, Prod.mk.injEq] at h
        rw [← h.2.1]
        exact inv_push_last w qp x (inv_pop w q qp y hp hinv)
  · rw [if_neg hf] at h
    simp only [Option.some.injEq, Prod.mk.injEq] at h
    rw [← h.2.1]
    exact inv_push_last w q x hinv

/-- One operation step preserves the extent invariant. -/
lemma inv_step (a : ActionIfFull) (w : T → Int) (q q1 : sFIFO T)
    (op : SOp T) (h : q.step a w op = some q1) (hinv : sFIFO.inv w q) :
    sFIFO.inv w q1 := by
  cases op with
  | push x =>
    simp only [sFIFO.step] at h
    cases hp : q.push a w x with
    | none => rw [hp] at h; simp at h
    | some res =>
      obtain ⟨st, q2, b⟩ := res
      rw [hp] at h
      simp only [Option.some.injEq] at h
      rw [← h]
      exact inv_push a w q x st q2 b hp hinv
  | pull =>
    simp only [sFIFO.step] at h
    cases hp : q.pull_pop_first w with
    | none => rw [hp] at h; simp at h
    | some p =>
      obtain ⟨y, qp⟩ := p
      rw [hp] at h
      simp only [Option.some.injEq] at h
      rw [← h]
      exact inv_pop w q qp y hp hinv
  | pull_timeout =>
    simp only [sFIFO.step, Option.some.injEq] at h
    rw [← h]
    exact hinv
  | clearOp =>
    simp only [sFIFO.step, Option.some.injEq] at h
    rw [← h]
    simp [sFIFO.inv, sFIFO.clear]

/-- Claim C1, counterexample.  Pushing `3` into the full queue
`⟨[1,2], max 2⟩` under `DumpFirstEntry` (the EvictOldest policy) does
evict the head and append the new item and return `FULL`
("Rejected"), but the notify flag of the result is `false`: the source
returns `Status::FULL` from inside the full branch, before ever
reaching `_condv.notify_one()`, so no wake signal is performed,
contradicting the claim that the eviction path wakes one waiting
consumer as the Accepted path does. -/
theorem push_evict_no_wake_cex :
    FIFO.push .DumpFirstEntry (⟨[1, 2], 2⟩ : FIFO Nat) 3
      = some (.FULL, ⟨[2, 3], 2⟩, false) ∧
    (FIFO.push .DumpFirstEntry (⟨[1, 2], 2⟩ : FIFO Nat) 3).map
        (fun r => r.2.2) ≠ some true := by
  decide

/-- Claim C1, amended: for every push call on a full queue (with a
non-empty buffer) under the EvictOldest policy, push removes the head
item, appends the new item, and returns Rejected (`FULL`), but
performs NO wake signal on the wait channel — `notify_one` is reached
only on the non-full Accepted path. -/
theorem push_evict_no_wake (q : FIFO T) (h0 : T) (t : List T) (x : T)
    (hfull : q.is_full_helper = true) (hq : q.queue = h0 :: t) :
    q.push .DumpFirstEntry x
      = some (.FULL, { q with queue := t ++ [x] }, false) ∧
    ∀ q1 : FIFO T, q.push .DumpFirstEntry x ≠ some (.FULL, q1, true) := by
  have hmain : q.push .DumpFirstEntry x
      = some (.FULL, { q with queue := t ++ [x] }, false) := by
    simp [FIFO.push, hfull, FIFO.pull_pop_first, hq, FIFO.push_last]
  refine ⟨hmain, ?_⟩
  intro q1 hcontra
  rw [hmain] at hcontra
  simp at hcontra

/-- Claim C1, witness for the amended theorem. -/
theorem push_evict_no_wake_wit :
    FIFO.push .DumpFirstEntry (⟨[1, 2], 2⟩ : FIFO Nat) 3
      = some (.FULL, ⟨[2, 3], 2⟩, false) ∧
    FIFO.push .DumpFirstEntry (⟨[1, 2], 2⟩ : FIFO Nat) 3
      ≠ some (.FULL, ⟨[2, 3], 2⟩, true) :=
  ⟨(push_evict_no_wake ⟨[1, 2], 2⟩ 1 [2] 3 (by decide) (by decide)).1,
   (push_evict_no_wake ⟨[1, 2], 2⟩ 1 [2] 3 (by decide) (by decide)).2 ⟨[2, 3], 2⟩⟩

/-- Claim C2, counterexample.  Weighted queue with capacity 10: push a
weight-9 item (accepted, extent 9 < 10), then a weight-1000 item (the
fullness check `9 >= 10` fails, so it is accepted too).  After the
second push the extent is 1009 > 10 while the buffer holds 2 items, so
neither `current_extent <= capacity_limit` nor `buffer.length == 1`
holds. -/
theorem weighted_capacity_bound_cex :
    sFIFO.push .DumpFirstEntry wNat (⟨[], 10, 0⟩ : sFIFO Nat) 9
      = some (.SUCCESS, ⟨[9], 10, 9⟩, true) ∧
    sFIFO.push .DumpFirstEntry wNat (⟨[9], 10, 9⟩ : sFIFO Nat) 1000
      = some (.SUCCESS, ⟨[9, 1000], 10, 1009⟩, true) ∧
    ¬((⟨[9, 1000], 10, 1009⟩ : sFIFO Nat).size_seconds
        ≤ (⟨[9, 1000], 10, 1009⟩ : sFIFO Nat).max_size_seconds ∨
      (⟨[9, 1000], 10, 1009⟩ : sFIFO Nat).queue.length = 1) := by
  decide

/-- Claim C2, amended: the capacity bound holds for the base variant as
an invariant preserved by push — if `size() <= capacity_limit` (with
the `int`-to-`size_t` conversion of the comparison) held before the
call, it holds after any push that completes.  The weighted variant
satisfies no such bound: after an accepting push only
`current_extent < capacity_limit + weight(item)` is guaranteed — the
pre-insertion extent was below the limit — and the extent can exceed
the limit with two or more resident items. -/
theorem capacity_bound_amended :
    (∀ {T : Type} (a : ActionIfFull) (q : FIFO T) (x : T) (st : Status)
        (q' : FIFO T) (n : Bool),
      q.queue.length ≤ usize q.max_size →
      q.push a x = some (st, q', n) →
      q'.queue.length ≤ usize q.max_size) ∧
    (∀ {T : Type} (a : ActionIfFull) (w : T → Int) (q : sFIFO T) (x : T)
        (st : Status) (q' : sFIFO T) (n : Bool),
      q.is_full_helper = false →
      sFIFO.push a w q x = some (st, q', n) →
      q'.size_seconds < q.max_size_seconds + w x) := by
  constructor
  · intro T a q x st q' n h1 h2
    unfold FIFO.push at h2
    by_cases hf : q.is_full_helper = true
    · rw [if_pos hf] at h2
      cases a with
      | Nothing =>
        simp only [Option.some.injEq, Prod.mk.injEq] at h2
        rw [← h2.2.1]
        exact h1
      | DumpFirstEntry =>
        cases hq : q.queue with
        | nil =>
          rw [FIFO.pull_pop_first, hq] at h2
          exact Option.noConfusion h2
        | cons y rest =>
          rw [FIFO.pull_pop_first, hq] at h2
          simp only [Option.some.injEq, Prod.mk.injEq] at h2
          rw [← h2.2.1]
          rw [hq] at h1
          simp [FIFO.push_last] at h1 ⊢
          omega
    · rw [if_neg hf] at h2
      simp only [Option.some.injEq, Prod.mk.injEq] at h2
      rw [← h2.2.1]
      simp only [Bool.not_eq_true, FIFO.is_full_helper,
        decide_eq_false_iff_not, not_le] at hf
      simp [FIFO.push_last]
      omega
  · intro T a w q x st q' n h1 h2
    unfold sFIFO.push at h2
    rw [h1] at h2
    simp only [Bool.false_eq_true, if_false, Option.some.injEq,
      Prod.mk.injEq] at h2
    rw [← h2.2.1]
    simp only [sFIFO.is_full_helper, decide_eq_false_iff_not, not_le] at h1
    simp [sFIFO.push_last]
    omega

/-- Claim C2, witness for the amended theorem. -/
theorem capacity_bound_amended_wit :
    ((⟨[1, 2], 2⟩ : FIFO Nat)).queue.length ≤ usize 2 ∧
    ((⟨[5, 100], 10, 105⟩ : sFIFO Nat)).size_seconds < 10 + wNat 100 := by
  constructor
  · exact capacity_bound_amended.1 .Nothing (⟨[1, 2], 2⟩ : FIFO Nat) 9 .FULL
      ⟨[1, 2], 2⟩ false (by decide) (by decide)
  · exact capacity_bound_amended.2 .DumpFirstEntry wNat
      (⟨[5], 10, 5⟩ : sFIFO Nat) 100 .SUCCESS ⟨[5, 100], 10, 105⟩ true
      (by decide) (by decide)

/-- Claim C5: pushing into a full queue (non-empty buffer) under
EvictOldest removes exactly the oldest item (the head), inserts the
new item at the tail, leaves `size()` unchanged, returns Rejected
(`FULL`), and the evicted item — if not also resident elsewhere in the
buffer and distinct from the new item — is excluded from every
subsequent pull. -/
theorem evict_oldest_correct (q : FIFO T) (h0 : T) (t : List T) (x : T)
    (hfull : q.is_full_helper = true) (hq : q.queue = h0 :: t) :
    q.push .DumpFirstEntry x
      = some (.FULL, { q with queue := t ++ [x] }, false) ∧
    ({ q with queue := t ++ [x] } : FIFO T).size = q.size ∧
    (h0 ∉ t → h0 ≠ x →
      ∀ n, h0 ∉ FIFO.pull_all n ({ q with queue := t ++ [x] } : FIFO T)) := by
  refine ⟨?_, ?_, ?_⟩
  · simp [FIFO.push, hfull, FIFO.pull_pop_first, hq, FIFO.push_last]
  · simp [FIFO.size, hq]
  · intro hnt hnx n hmem
    rw [pull_all_take] at hmem
    have hsub : h0 ∈ t ++ [x] := List.take_subset n (t ++ [x]) hmem
    rcases List.mem_append.1 hsub with h | h
    · exact hnt h
    · simp at h
      exact hnx h

/-- Claim C5, witness. -/
theorem evict_oldest_correct_wit :
    FIFO.push .DumpFirstEntry (⟨[1, 2], 2⟩ : FIFO Nat) 3
      = some (.FULL, ⟨[2, 3], 2⟩, false) ∧
    (⟨[2, 3], 2⟩ : FIFO Nat).size = (⟨[1, 2], 2⟩ : FIFO Nat).size ∧
    1 ∉ FIFO.pull_all 2 (⟨[2, 3], 2⟩ : FIFO Nat) := by
  have h := evict_oldest_correct (⟨[1, 2], 2⟩ : FIFO Nat) 1 [2] 3
    (by decide) (by decide)
  exact ⟨h.1, h.2.1, h.2.2 (by decide) (by decide) 2⟩

/-- Claim C6: pushing into a full queue under the Reject policy
(`ActionIfFull::Nothing`) returns `FULL` ("Rejected") and leaves the
whole queue state — buffer, `size()`, and extent accounting — exactly
unchanged, in both the base and the weighted variant; the item is not
consumed into the buffer (the pure model never destroys it, matching
the source, whose `Nothing` branch does not touch `item`). -/
theorem reject_policy_unchanged :
    (∀ {T : Type} (q : FIFO T) (x : T), q.is_full_helper = true →
      q.push .Nothing x = some (.FULL, q, false)) ∧
    (∀ {T : Type} (w : T → Int) (q : sFIFO T) (x : T),
      q.is_full_helper = true →
      sFIFO.push .Nothing w q x = some (.FULL, q, false)) := by
  constructor
  · intro T q x hf
    simp [FIFO.push, hf]
  · intro T w q x hf
    simp [sFIFO.push, hf]

/-- Claim C6, witness. -/
theorem reject_policy_unchanged_wit :
    FIFO.push .Nothing (⟨[1, 2], 2⟩ : FIFO Nat) 9
      = some (.FULL, ⟨[1, 2], 2⟩, false) ∧
    sFIFO.push .Nothing wNat (⟨[7], 5, 7⟩ : sFIFO Nat) 9
      = some (.FULL, ⟨[7], 5, 7⟩, false) :=
  ⟨reject_policy_unchanged.1 (⟨[1, 2], 2⟩ : FIFO Nat) 9 (by decide),
   reject_policy_unchanged.2 wNat (⟨[7], 5, 7⟩ : sFIFO Nat) 9 (by decide)⟩

/-- Claim C9: the is-full check can hold while the buffer is empty, and
that state is reachable — a default-constructed base queue has
`_max_size = 0` and `0 >= 0` holds, and a weighted queue with zero
capacity satisfies `0 >= 0` — and in such a state a push under the
EvictOldest policy runs `pull_pop_first` (`front()` then `pop()`) on
the empty buffer with no non-emptiness guard, reaching the
head-access error branch (`none` in the model, undefined behaviour in
the source). -/
theorem evict_on_empty_reachable :
    (⟨[], 0⟩ : FIFO Nat).is_full_helper = true ∧
    FIFO.push .DumpFirstEntry (⟨[], 0⟩ : FIFO Nat) 7 = none ∧
    (⟨[], 0, 0⟩ : sFIFO Nat).is_full_helper = true ∧
    sFIFO.push .DumpFirstEntry wNat (⟨[], 0, 0⟩ : sFIFO Nat) 7 = none := by
  decide

/-- Claim C3, counterexample.  Timeout 10, empty queue, schedule: a
spurious wakeup after 9 (no arrivals), then a wakeup after another 9
delivering item 42.  Both waits are valid `wait_for` behaviours for
the constant bound 10 that the code passes each iteration (the second
suspend lasts 9, exceeding the remaining time `10 - 9` to the
deadline).  The deadline elapses (at 10) while the buffer is still
empty, yet the call returns `SUCCESS` with item 42 at clock 18 — not
`TimedOut`. -/
theorem pull_timed_full_timeout_cex :
    ValidEvent 10 (⟨.woken, 9, []⟩ : WaitEvent Nat) ∧
    ValidEvent 10 (⟨.woken, 9, [42]⟩ : WaitEvent Nat) ∧
    FIFO.pull_timed 10 [⟨.woken, 9, []⟩, ⟨.woken, 9, [42]⟩]
        (⟨[], 5⟩ : FIFO Nat) 0
      = some (.SUCCESS, some 42, ⟨[], 5⟩, 18) ∧
    10 < 18 ∧ 10 - 9 < 9 := by
  decide

/-- Claim C3, amended: each individual suspend of the timed `pull` is
bounded by the full original `timeout` — the code passes the same
constant to `wait_for` on every iteration, never the remaining time —
so a call consuming `k` waits returns by clock `e0 + timeout * k`; and
the call returns `TimedOut` exactly when one whole wait of the
original `timeout` expires while the buffer is empty (hence at least
`timeout` after entry), consuming no item.  The total wall time until
`TimedOut` or success may exceed the original timeout. -/
theorem pull_timed_full_timeout_each_wait (timeout : Nat) :
    ∀ (evs : List (WaitEvent T)) (q : FIFO T) (e0 : Nat) (st : Status)
      (r : Option T) (q' : FIFO T) (e : Nat),
    (∀ ev ∈ evs, ValidEvent timeout ev) →
    FIFO.pull_timed timeout evs q e0 = some (st, r, q', e) →
    e ≤ e0 + timeout * evs.length ∧
    (st = .TIMEOUT → r = none ∧ e0 + timeout ≤ e) := by
  intro evs
  induction evs with
  | nil =>
    intro q e0 st r q' e _ h
    rw [FIFO.pull_timed] at h
    cases hq : q.queue with
    | nil =>
      rw [hq] at h
      simp at h
    | cons x rest =>
      rw [hq] at h
      simp only [Option.some.injEq, Prod.mk.injEq] at h
      obtain ⟨hst, -, -, he⟩ := h
      refine ⟨by omega, ?_⟩
      intro hT
      rw [← hst] at hT
      exact Status.noConfusion hT
  | cons ev tail ih =>
    intro q e0 st r q' e hval h
    rw [FIFO.pull_timed] at h
    cases hq : q.queue with
    | cons x rest =>
      rw [hq] at h
      simp only [Option.some.injEq, Prod.mk.injEq] at h
      obtain ⟨hst, -, -, he⟩ := h
      refine ⟨by omega, ?_⟩
      intro hT
      rw [← hst] at hT
      exact Status.noConfusion hT
    | nil =>
      rw [hq] at h
      cases hres : ev.result with
      | timedout =>
        rw [hres] at h
        simp only [Option.some.injEq, Prod.mk.injEq] at h
        obtain ⟨hst, hr, -, he⟩ := h
        have hv : ev.elapsed = timeout :=
          (hval ev (List.mem_cons_self _ _)).1 hres
        have hmul : timeout * (tail.length + 1)
            = timeout * tail.length + timeout := Nat.mul_succ _ _
        refine ⟨by simp only [List.length_cons]; omega, ?_⟩
        intro _
        exact ⟨hr.symm, by omega⟩
      | woken =>
        rw [hres] at h
        simp only [List.nil_append] at h
        have hv : ev.elapsed < timeout :=
          (hval ev (List.mem_cons_self _ _)).2 hres
        have ihres := ih { q with queue := ev.arrivals }
          (e0 + ev.elapsed) st r q' e
          (fun e' he' => hval e' (List.mem_cons_of_mem _ he')) h
        obtain ⟨hb, ht⟩ := ihres
        have hmul : timeout * (tail.length + 1)
            = timeout * tail.length + timeout := Nat.mul_succ _ _
        refine ⟨by simp only [List.length_cons]; omega, ?_⟩
        intro hT
        obtain ⟨hr, hge⟩ := ht hT
        exact ⟨hr, by omega⟩

/-- Claim C3, witness for the amended theorem. -/
theorem pull_timed_full_timeout_each_wait_wit :
    (10 : Nat) ≤ 0 + 10 * [(⟨.timedout, 10, []⟩ : WaitEvent Nat)].length ∧
    (none : Option Nat) = none ∧ (0 : Nat) + 10 ≤ 10 := by
  have h := pull_timed_full_timeout_each_wait 10
    [(⟨.timedout, 10, []⟩ : WaitEvent Nat)] (⟨[], 5⟩ : FIFO Nat) 0
    .TIMEOUT none ⟨[], 5⟩ 10 (by decide) (by decide)
  exact ⟨h.1, h.2 rfl⟩

/-- Claim C4: a timed `pull` that returns `TIMEOUT` consumes no item,
and — when no producer pushes during the call (the queue stays empty,
as in the spec's scenario) — leaves the entire queue state (buffer,
size, capacity, extent) exactly as it was before the call. -/
theorem pull_timed_timeout_no_effect (timeout : Nat) :
    ∀ (evs : List (WaitEvent T)) (q : FIFO T) (e0 : Nat) (r : Option T)
      (q' : FIFO T) (e : Nat),
    (∀ ev ∈ evs, ev.arrivals = []) →
    FIFO.pull_timed timeout evs q e0 = some (.TIMEOUT, r, q', e) →
    r = none ∧ q' = q := by
  intro evs
  induction evs with
  | nil =>
    intro q e0 r q' e _ h
    rw [FIFO.pull_timed] at h
    cases hq : q.queue with
    | nil =>
      rw [hq] at h
      simp at h
    | cons x rest =>
      rw [hq] at h
      simp at h
  | cons ev tail ih =>
    intro q e0 r q' e harr h
    have ha : ev.arrivals = [] := harr ev (List.mem_cons_self _ _)
    rw [FIFO.pull_timed] at h
    cases hq : q.queue with
    | cons x rest =>
      rw [hq] at h
      simp at h
    | nil =>
      rw [hq] at h
      cases hres : ev.result with
      | timedout =>
        rw [hres] at h
        simp only [Option.some.injEq, Prod.mk.injEq, List.nil_append,
          eq_self_iff_true, true_and] at h
        obtain ⟨hr, hq', -⟩ := h
        refine ⟨hr.symm, ?_⟩
        rw [← hq', ha, ← hq]
      | woken =>
        rw [hres] at h
        simp only [List.nil_append] at h
        have ihres := ih { q with queue := ev.arrivals }
          (e0 + ev.elapsed) r q' e
          (fun e' he' => harr e' (List.mem_cons_of_mem _ he')) h
        obtain ⟨hr, hq'⟩ := ihres
        refine ⟨hr, ?_⟩
        rw [hq', ha, ← hq]

/-- Claim C4, witness. -/
theorem pull_timed_timeout_no_effect_wit :
    (none : Option Nat) = none ∧ (⟨[], 5⟩ : FIFO Nat) = ⟨[], 5⟩ :=
  pull_timed_timeout_no_effect 10 [⟨.timedout, 10, []⟩]
    (⟨[], 5⟩ : FIFO Nat) 0 none ⟨[], 5⟩ 10 (by decide) (by decide)

/-- Claim C7: a sequence of pushes that all return `SUCCESS`
("Accepted", hence with no intervening eviction) appends exactly those
items, in push order, after the existing buffer contents, and draining
the queue by repeated pulls returns them in exactly that order. -/
theorem fifo_order (a : ActionIfFull) (xs : List T) (q q' : FIFO T)
    (sts : List Status)
    (h1 : FIFO.push_all a xs q = some (q', sts))
    (h2 : ∀ s ∈ sts, s = .SUCCESS) :
    q'.queue = q.queue ++ xs ∧
    FIFO.pull_all q'.size q' = q.queue ++ xs := by
  have hq := push_all_success_queue a xs q q' sts h1 h2
  refine ⟨hq, ?_⟩
  rw [pull_all_take, FIFO.size, List.take_length, hq]

/-- Claim C7, witness: two accepted pushes into an empty queue drain
back in push order. -/
theorem fifo_order_wit :
    (⟨[1, 2], 3⟩ : FIFO Nat).queue = [] ++ [1, 2] ∧
    FIFO.pull_all (⟨[1, 2], 3⟩ : FIFO Nat).size (⟨[1, 2], 3⟩ : FIFO Nat)
      = [] ++ [1, 2] :=
  fifo_order .Nothing [1, 2] ⟨[], 3⟩ ⟨[1, 2], 3⟩ [.SUCCESS, .SUCCESS]
    (by decide) (by decide)

/-- Claim C8: the weighted variant's extent accounting never drifts —
after any sequence of pushes (including evicting ones), pulls (both
the blocking form and the timed form, whether it pops an item or times
out), and weighted `clear` calls, `_size_seconds` equals the sum of
`get_size_seconds()` over the items currently resident in the
buffer. -/
theorem weighted_accounting_no_drift (a : ActionIfFull) (w : T → Int) :
    ∀ (ops : List (SOp T)) (q q' : sFIFO T),
    sFIFO.inv w q → sFIFO.run a w ops q = some q' → sFIFO.inv w q' := by
  intro ops
  induction ops with
  | nil =>
    intro q q' hinv h
    simp only [sFIFO.run, Option.some.injEq] at h
    rw [← h]
    exact hinv
  | cons op ops ih =>
    intro q q' hinv h
    cases hs : q.step a w op with
    | none =>
      simp only [sFIFO.run, hs] at h
      exact Option.noConfusion h
    | some q1 =>
      simp only [sFIFO.run, hs] at h
      exact ih q1 q' (inv_step a w q q1 op hs hinv) h

/-- Claim C8, witness: three pushes (the third evicting the oldest
item) starting from an empty weighted queue of capacity 10 end in a
state whose extent equals the sum of the resident weights. -/
theorem weighted_accounting_no_drift_wit :
    sFIFO.inv wNat (⟨[9, 7], 10, 16⟩ : sFIFO Nat) :=
  weighted_accounting_no_drift .DumpFirstEntry wNat
    [.push 9, .push 9, .push 7] ⟨[], 10, 0⟩ ⟨[9, 7], 10, 16⟩
    (by decide) (by decide)

/-- Claim C10: the base `FIFO::clear`, whose loop bound `_queue.size()`
shrinks as it pops, pops only the first `⌈n/2⌉` items through the
per-item removal hook and discards the rest by swapping in an empty
queue.  Run through the base interface on a weighted queue (whose own
`clear` hides, not overrides, the base one), this leaves
`_size_seconds` equal to the sum of the weights of the un-popped
`⌊n/2⌋` items while the buffer is empty — breaking the
extent-equals-aggregate invariant whenever that leftover sum is
non-zero. -/
theorem base_clear_half_pops (w : T → Int) (q : sFIFO T)
    (_h2 : 2 ≤ q.queue.length) (hinv : sFIFO.inv w q) :
    (clear_loop w q.queue q.size_seconds 0).1
      = q.queue.drop ((q.queue.length + 1) / 2) ∧
    (sFIFO.clear_via_base w q).queue = [] ∧
    (sFIFO.clear_via_base w q).size_seconds
      = ((q.queue.drop ((q.queue.length + 1) / 2)).map w).sum ∧
    (((q.queue.drop ((q.queue.length + 1) / 2)).map w).sum ≠ 0 →
      ¬ sFIFO.inv w (sFIFO.clear_via_base w q)) := by
  have hspec := clear_loop_spec w q.queue q.size_seconds 0
  simp only [Nat.sub_zero] at hspec
  have hsize : (sFIFO.clear_via_base w q).size_seconds
      = ((q.queue.drop ((q.queue.length + 1) / 2)).map w).sum := by
    unfold sFIFO.clear_via_base
    rw [hspec]
    show q.size_seconds
        - ((q.queue.take ((q.queue.length + 1) / 2)).map w).sum
      = ((q.queue.drop ((q.queue.length + 1) / 2)).map w).sum
    unfold sFIFO.inv at hinv
    rw [← List.take_append_drop ((q.queue.length + 1) / 2) q.queue] at hinv
    simp only [List.map_append, List.sum_append] at hinv
    omega
  refine ⟨by rw [hspec], rfl, hsize, ?_⟩
  intro hne hcontra
  unfold sFIFO.inv at hcontra
  apply hne
  rw [← hsize, hcontra]
  simp [sFIFO.clear_via_base]

/-- Claim C10, witness: a weighted queue holding weights `[3, 5]`
(extent 8) cleared through the base interface ends with an empty
buffer but `_size_seconds = 5`, the weight of the un-popped second
item. -/
theorem base_clear_half_pops_wit :
    (clear_loop wNat [3, 5] 8 0).1 = ([3, 5] : List Nat).drop 1 ∧
    (sFIFO.clear_via_base wNat (⟨[3, 5], 10, 8⟩ : sFIFO Nat)).queue = [] ∧
    (sFIFO.clear_via_base wNat (⟨[3, 5], 10, 8⟩ : sFIFO Nat)).size_seconds
      = ((([3, 5] : List Nat).drop 1).map wNat).sum ∧
    ¬ sFIFO.inv wNat (sFIFO.clear_via_base wNat (⟨[3, 5], 10, 8⟩ : sFIFO Nat)) := by
  have h := base_clear_half_pops wNat (⟨[3, 5], 10, 8⟩ : sFIFO Nat)
    (by decide) (by decide)
  exact ⟨h.1, h.2.1, h.2.2.1, h.2.2.2 (by decide)⟩

end TsFIFO
